import Mathlib

/-!
# Monthly Spend Overview: a shallow embedding

A verification development for a single-view personal-finance dashboard
(`src/app/page.tsx`).  The view renders a fixed transaction list and a
mutable budget list, derives aggregate statistics (totals, percentages,
per-category spend, a descending stable sort of category totals), and
manages ephemeral UI state: a one-time-per-month budget edit flow, an
expandable category card, and a transient toast.

Currency amounts are modelled as rationals (`ℚ`); `Math.round` is
modelled as `jsRound`, rounding half up.  The component's event handlers
become pure state-transition functions on a `State` record, and the
events a user can actually fire (buttons that are only rendered under
certain conditions) become a guarded `step` function over an `Op` type.
-/

/-- Ingestion source of a transaction (`source: 'email' | 'sms' | 'manual'`). -/
inductive Source where
  | email
  | sms
  | manual
deriving DecidableEq, Repr

/-- A transaction record, as in the `Transaction` interface of the source. -/
structure Transaction where
  id : String
  date : String
  amount : ℚ
  merchant : String
  category : String
  source : Source
deriving DecidableEq, Repr

/-- A category budget record, as in the `CategoryBudget` interface. -/
structure CategoryBudget where
  category : String
  monthlyBudget : ℚ
  lockedForMonth : Bool
deriving DecidableEq, Repr

/-- The fixed seed transaction list `mockTransactions`. -/
def mockTransactions : List Transaction :=
  [ ⟨"1", "2025-08-05", 1250, "Swiggy", "Food", Source.email⟩,
    ⟨"2", "2025-08-06", 890, "Zomato", "Food", Source.sms⟩,
    ⟨"3", "2025-08-07", 3499, "Myntra", "Shopping", Source.email⟩,
    ⟨"4", "2025-08-08", 450, "Uber", "Travel / Fuel", Source.sms⟩,
    ⟨"5", "2025-08-10", 1200, "Netflix", "Entertainment", Source.manual⟩,
    ⟨"6", "2025-08-12", 560, "Apollo Pharmacy", "Medical", Source.sms⟩,
    ⟨"7", "2025-08-15", 2100, "Amazon", "Shopping", Source.email⟩,
    ⟨"8", "2025-08-16", 380, "Cafe Coffee Day", "Food", Source.manual⟩,
    ⟨"9", "2025-08-17", 850, "Rapido", "Travel / Fuel", Source.sms⟩ ]

/-- The seed budget list `initialBudgets` (Food is preset as locked). -/
def initialBudgets : List CategoryBudget :=
  [ ⟨"Food", 8000, true⟩,
    ⟨"Entertainment", 4000, false⟩,
    ⟨"Shopping", 12000, false⟩,
    ⟨"Travel / Fuel", 6000, false⟩,
    ⟨"Medical", 3000, false⟩,
    ⟨"Other", 5000, false⟩ ]

/-- `totalBudget`: `budgets.reduce((sum, b) => sum + b.monthlyBudget, 0)`. -/
def totalBudget (budgets : List CategoryBudget) : ℚ :=
  budgets.foldl (fun sum b => sum + b.monthlyBudget) 0

/-- `totalSpent`: `mockTransactions.reduce((sum, t) => sum + t.amount, 0)`. -/
def totalSpent (transactions : List Transaction) : ℚ :=
  transactions.foldl (fun sum t => sum + t.amount) 0

/-- JavaScript `Math.round`: round half toward positive infinity. -/
def jsRound (q : ℚ) : ℤ := ⌊q + 1 / 2⌋

/-- `spentPercentage = totalBudget > 0 ? Math.round(totalSpent / totalBudget * 100) : 0`. -/
def spentPercentage (budgets : List CategoryBudget) (transactions : List Transaction) : ℤ :=
  if totalBudget budgets > 0 then jsRound (totalSpent transactions / totalBudget budgets * 100)
  else 0

/-- `getSpentByCategory`: sum of amounts of the transactions in the category. -/
def getSpentByCategory (transactions : List Transaction) (category : String) : ℚ :=
  (transactions.filter (fun t => t.category == category)).foldl (fun sum t => sum + t.amount) 0

/-- One row of `categoryStats`. -/
structure CategoryStat where
  category : String
  amount : ℚ
  percentageOfTotal : ℚ
deriving DecidableEq, Repr

/-- One step of the accumulation `map[t.category] = (map[t.category] || 0) + t.amount`
over a JavaScript object whose string keys keep insertion order. -/
def addTx (acc : List (String × ℚ)) (t : Transaction) : List (String × ℚ) :=
  if acc.any (fun p => p.1 == t.category) then
    acc.map (fun p => if p.1 == t.category then (p.1, p.2 + t.amount) else p)
  else
    acc ++ [(t.category, t.amount)]

/-- The insertion-ordered category-total map built by the `for` loop in
`categoryStats`, as a key/value list in first-appearance key order. -/
def groupAmounts (transactions : List Transaction) : List (String × ℚ) :=
  transactions.foldl addTx []

/-- `Object.entries(map).map(...)`: category totals decorated with
`percentageOfTotal`, still in first-appearance order (pre-sort). -/
def preStats (transactions : List Transaction) : List CategoryStat :=
  (groupAmounts transactions).map fun p =>
    ⟨p.1, p.2, if totalSpent transactions > 0 then p.2 / totalSpent transactions * 100 else 0⟩

/-- Stable insertion step for a descending sort by `amount`: the new element
goes in front of the first element whose amount is not larger, so elements
with equal amounts keep their original relative order.  This realises
`entries.sort((a, b) => b.amount - a.amount)`, which ECMAScript guarantees
to be a stable sort. -/
def insertStat (x : CategoryStat) : List CategoryStat → List CategoryStat
  | [] => [x]
  | y :: ys => if y.amount ≤ x.amount then x :: y :: ys else y :: insertStat x ys

/-- Stable descending-by-`amount` sort (see `insertStat`). -/
def sortStats : List CategoryStat → List CategoryStat
  | [] => []
  | x :: xs => insertStat x (sortStats xs)

/-- `categoryStats`: per-category totals with percentage of total spend,
sorted descending by amount (stable). -/
def categoryStats (transactions : List Transaction) : List CategoryStat :=
  sortStats (preStats transactions)

/-- `maxCategoryAmount = categoryStats.reduce((max, c) => Math.max(max, c.amount), 0)`. -/
def maxCategoryAmount (transactions : List Transaction) : ℚ :=
  (categoryStats transactions).foldl (fun mx c => max mx c.amount) 0

/-- The color tiers used by the circular progress indicator. -/
inductive ColorTier where
  | normal
  | warning
  | danger
deriving DecidableEq, Repr

/-- Color tier of `CircularProgress`:
`percentage > 90 ? rose : percentage > 70 ? amber : sky`. -/
def progressColor (percentage : ℤ) : ColorTier :=
  if percentage > 90 then ColorTier.danger
  else if percentage > 70 then ColorTier.warning
  else ColorTier.normal

/-- Toast kinds (`type: 'success' | 'error'`). -/
inductive ToastKind where
  | success
  | error
deriving DecidableEq, Repr

/-- A toast value (`{ message, type }`). -/
structure Toast where
  message : String
  kind : ToastKind
deriving DecidableEq, Repr

/-- The component's mutable state: the `useState` hooks, plus a counter of
celebratory-effect (`confetti`) firings so the effect is observable. -/
structure State where
  budgets : List CategoryBudget
  editingCategory : Option String
  editValue : ℚ
  expandedCategory : Option String
  toast : Option Toast
  confetti : Nat
deriving DecidableEq, Repr

/-- The state right after mount. -/
def initialState : State :=
  { budgets := initialBudgets
    editingCategory := none
    editValue := 0
    expandedCategory := none
    toast := none
    confetti := 0 }

/-- `showToast(message, type)` (auto-dismiss timer not modelled: no claim
depends on elapsed time). -/
def showToast (message : String) (kind : ToastKind) (s : State) : State :=
  { s with toast := some ⟨message, kind⟩ }

/-- The budget entry a category key resolves to (first match, as every
per-entry button closes over its own `budget`). -/
def entryOf (budgets : List CategoryBudget) (category : String) : Option CategoryBudget :=
  budgets.find? (fun b => b.category == category)

/-- The per-entry update of `handleSave`'s `budgets.map`: the matching
entry gets `monthlyBudget = editValue` and `lockedForMonth = true`, every
other entry is returned unchanged. -/
def saveEntry (category : String) (v : ℚ) (b : CategoryBudget) : CategoryBudget :=
  if b.category == category then { b with monthlyBudget := v, lockedForMonth := true } else b

/-- `handleSave(category)`: lock and update the matching budget entry,
leave edit mode, show the success toast and fire the celebratory effect. -/
def handleSave (category : String) (s : State) : State :=
  let s1 : State :=
    { s with
        budgets := s.budgets.map (saveEntry category s.editValue)
        editingCategory := none }
  let s2 := showToast ("Budget for " ++ category ++ " updated & locked for this month!")
    ToastKind.success s1
  { s2 with confetti := s2.confetti + 1 }

/-- The edit button's `onClick`: guarded by `if (!budget.lockedForMonth)`;
the button only exists for categories with a budget entry. -/
def beginEdit (category : String) (s : State) : State :=
  match entryOf s.budgets category with
  | some b =>
      if b.lockedForMonth then s
      else { s with editingCategory := some category, editValue := b.monthlyBudget }
  | none => s

/-- The number input's `onChange`: `setEditValue(...)`; the input is only
rendered while some category is being edited. -/
def updateDraft (v : ℚ) (s : State) : State :=
  if s.editingCategory.isSome then { s with editValue := v } else s

/-- The cancel button's `onClick`: `setEditingCategory(null)`. -/
def cancelEdit (s : State) : State :=
  { s with editingCategory := none }

/-- The card's `onClick`:
`setExpandedCategory(isExpanded ? null : budget.category)`; a card exists
exactly for the categories in the budget list. -/
def toggleCard (category : String) (s : State) : State :=
  if s.budgets.any (fun b => b.category == category) then
    { s with
        expandedCategory :=
          if s.expandedCategory = some category then none else some category }
  else s

/-- The user-fireable events of the view. -/
inductive Op where
  | beginEdit (category : String)
  | updateDraft (v : ℚ)
  | save (category : String)
  | cancel
  | toggle (category : String)
deriving DecidableEq, Repr

/-- One UI event.  The save (check) button is only rendered while
`editingCategory === budget.category`, and only for entries of the budget
list, so the `save` event carries that availability guard. -/
def step (op : Op) (s : State) : State :=
  match op with
  | Op.beginEdit c => beginEdit c s
  | Op.updateDraft v => updateDraft v s
  | Op.save c =>
      if s.editingCategory = some c ∧ s.budgets.any (fun b => b.category == c) then
        handleSave c s
      else s
  | Op.cancel => cancelEdit s
  | Op.toggle c => toggleCard c s

/-- Run a sequence of UI events from a state. -/
def runOps (ops : List Op) (s : State) : State :=
  ops.foldl (fun s op => step op s) s

/-- Whether the entry a category key resolves to is locked. -/
def lockedAt (s : State) (category : String) : Bool :=
  match entryOf s.budgets category with
  | some b => b.lockedForMonth
  | none => false

/-- The distinct categories of a list of category keys, in order of first
appearance (the key order of a JavaScript object built by insertion). -/
def firstKeys : List String → List String
  | [] => []
  | c :: cs => c :: (firstKeys cs).filter (fun d => d ≠ c)

/-- The keys of a key/value list. -/
def keysOf (l : List (String × ℚ)) : List String :=
  l.map Prod.fst

/-- Total value stored under a key (the value itself once keys are
duplicate-free). -/
def lookupAmt (l : List (String × ℚ)) (c : String) : ℚ :=
  ((l.filter (fun p => p.1 == c)).map Prod.snd).sum

/-- The edit-mode invariant of the view: whenever a category is in edit
mode, it resolves to a budget entry that is not locked.  It holds on
mount and is preserved by every user-fireable event; it is what makes a
locked entry immutable. -/
def EditInv (s : State) : Prop :=
  ∀ c, s.editingCategory = some c →
    ∃ b, entryOf s.budgets c = some b ∧ b.lockedForMonth = false

/-! ## Sums and per-category totals -/

theorem foldl_add_amount (ts : List Transaction) (a : ℚ) :
    ts.foldl (fun sum t => sum + t.amount) a = a + (ts.map (fun t => t.amount)).sum := by
  induction ts generalizing a with
  | nil => simp
  | cons t ts ih => simp [List.foldl_cons, ih, add_assoc]

theorem totalSpent_eq_sum (ts : List Transaction) :
    totalSpent ts = (ts.map (fun t => t.amount)).sum := by
  simpa [totalSpent] using foldl_add_amount ts 0

theorem totalBudget_eq_sum (bs : List CategoryBudget) :
    totalBudget bs = (bs.map (fun b => b.monthlyBudget)).sum := by
  have h : ∀ (bs : List CategoryBudget) (a : ℚ),
      bs.foldl (fun sum b => sum + b.monthlyBudget) a
        = a + (bs.map (fun b => b.monthlyBudget)).sum := by
    intro bs
    induction bs with
    | nil => simp
    | cons b bs ih => intro a; simp [List.foldl_cons, ih, add_assoc]
  simpa [totalBudget] using h bs 0

theorem totalSpent_cons (t : Transaction) (ts : List Transaction) :
    totalSpent (t :: ts) = t.amount + totalSpent ts := by
  simp [totalSpent_eq_sum]

theorem totalSpent_nonneg (ts : List Transaction) (h : ∀ t ∈ ts, 0 ≤ t.amount) :
    0 ≤ totalSpent ts := by
  rw [totalSpent_eq_sum]
  refine List.sum_nonneg ?_
  intro x hx
  rcases List.mem_map.1 hx with ⟨t, ht, rfl⟩
  exact h t ht

theorem getSpentByCategory_eq_sum (ts : List Transaction) (c : String) :
    getSpentByCategory ts c
      = ((ts.filter (fun t => t.category == c)).map (fun t => t.amount)).sum := by
  simpa [getSpentByCategory] using foldl_add_amount (ts.filter (fun t => t.category == c)) 0

theorem getSpentByCategory_nil (c : String) : getSpentByCategory [] c = 0 := by
  simp [getSpentByCategory]

theorem getSpentByCategory_cons (t : Transaction) (ts : List Transaction) (c : String) :
    getSpentByCategory (t :: ts) c
      = (if t.category = c then t.amount else 0) + getSpentByCategory ts c := by
  by_cases h : t.category = c
  · simp [getSpentByCategory_eq_sum, List.filter_cons, h]
  · simp [getSpentByCategory_eq_sum, List.filter_cons, h]

theorem getSpentByCategory_eq_zero (ts : List Transaction) (c : String)
    (h : c ∉ ts.map (fun t => t.category)) : getSpentByCategory ts c = 0 := by
  rw [getSpentByCategory_eq_sum]
  have hf : ts.filter (fun t => t.category == c) = [] := by
    refine List.filter_eq_nil_iff.2 ?_
    intro t ht
    simp only [beq_iff_eq]
    intro hc
    exact h (List.mem_map.2 ⟨t, ht, hc⟩)
  simp [hf]

theorem sum_map_ite_eq (x : ℚ) (a : String) (l : List String)
    (hn : l.Nodup) (hm : a ∈ l) :
    (l.map (fun d => if d = a then x else 0)).sum = x := by
  induction l with
  | nil => cases hm
  | cons d l ih =>
    rcases List.nodup_cons.1 hn with ⟨hd, hl⟩
    rcases List.mem_cons.1 hm with h | h
    · have hz : (l.map (fun e => if e = a then x else 0)).sum = 0 := by
        refine List.sum_eq_zero ?_
        intro y hy
        rcases List.mem_map.1 hy with ⟨e, he, rfl⟩
        have hne : e ≠ a := fun hc => hd ((hc.trans h) ▸ he)
        simp [hne]
      simp [h.symm, hz]
    · have hda : d ≠ a := fun hc => hd (hc ▸ h)
      simp [hda, ih hl h]

theorem sum_map_ite_eq_zero (x : ℚ) (a : String) (l : List String) (hm : a ∉ l) :
    (l.map (fun d => if d = a then x else 0)).sum = 0 := by
  refine List.sum_eq_zero ?_
  intro y hy
  rcases List.mem_map.1 hy with ⟨d, hd, rfl⟩
  have : d ≠ a := fun hc => hm (hc ▸ hd)
  simp [this]

/-! ## The save map and keyed lookup into the budget list -/

theorem saveEntry_category (c : String) (v : ℚ) (b : CategoryBudget) :
    (saveEntry c v b).category = b.category := by
  by_cases h : b.category == c <;> simp [saveEntry, h]

theorem saveEntry_locked (c : String) (v : ℚ) (b : CategoryBudget)
    (h : b.lockedForMonth = true) : (saveEntry c v b).lockedForMonth = true := by
  by_cases hc : b.category == c <;> simp [saveEntry, hc, h]

theorem saveEntry_of_ne (c : String) (v : ℚ) (b : CategoryBudget)
    (h : b.category ≠ c) : saveEntry c v b = b := by
  simp [saveEntry, h]

theorem saveEntry_of_eq (c : String) (v : ℚ) (b : CategoryBudget)
    (h : b.category = c) : saveEntry c v b = ⟨c, v, true⟩ := by
  subst h
  simp [saveEntry]

theorem find?_map_of_category_eq (f : CategoryBudget → CategoryBudget)
    (hf : ∀ b, (f b).category = b.category) (bs : List CategoryBudget) (c : String) :
    (bs.map f).find? (fun b => b.category == c)
      = (bs.find? (fun b => b.category == c)).map f := by
  induction bs with
  | nil => simp
  | cons b bs ih =>
    simp only [List.map_cons, List.find?_cons, hf b]
    cases h : (b.category == c) <;> simp [h, ih]

theorem entryOf_map_save (bs : List CategoryBudget) (c d : String) (v : ℚ) :
    entryOf (bs.map (saveEntry c v)) d = (entryOf bs d).map (saveEntry c v) := by
  simpa [entryOf] using
    find?_map_of_category_eq (saveEntry c v) (saveEntry_category c v) bs d

theorem entryOf_category (bs : List CategoryBudget) (c : String) (b : CategoryBudget)
    (h : entryOf bs c = some b) : b.category = c := by
  have := List.find?_some h
  simpa [beq_iff_eq] using this

/-! ## `handleSave` projections and lock preservation -/

theorem handleSave_budgets (c : String) (s : State) :
    (handleSave c s).budgets = s.budgets.map (saveEntry c s.editValue) := rfl

theorem handleSave_editingCategory (c : String) (s : State) :
    (handleSave c s).editingCategory = none := rfl

theorem handleSave_toast (c : String) (s : State) :
    (handleSave c s).toast
      = some ⟨"Budget for " ++ c ++ " updated & locked for this month!", ToastKind.success⟩ := rfl

theorem handleSave_confetti (c : String) (s : State) :
    (handleSave c s).confetti = s.confetti + 1 := rfl

theorem entryOf_handleSave (c d : String) (s : State) :
    entryOf (handleSave c s).budgets d = (entryOf s.budgets d).map (saveEntry c s.editValue) := by
  rw [handleSave_budgets, entryOf_map_save]

theorem lockedAt_handleSave (c d : String) (s : State) (h : lockedAt s d = true) :
    lockedAt (handleSave c s) d = true := by
  unfold lockedAt at h ⊢
  rw [entryOf_handleSave]
  cases he : entryOf s.budgets d with
  | none => rw [he] at h; cases h
  | some b =>
      rw [he] at h
      simpa using saveEntry_locked c s.editValue b h

theorem lockedAt_handleSave_self (c : String) (s : State)
    (h : (entryOf s.budgets c).isSome = true) : lockedAt (handleSave c s) c = true := by
  unfold lockedAt
  rw [entryOf_handleSave]
  cases he : entryOf s.budgets c with
  | none => rw [he] at h; cases h
  | some b =>
      have hcat : b.category = c := entryOf_category s.budgets c b he
      simp [saveEntry_of_eq c s.editValue b hcat]

theorem beginEdit_budgets (c : String) (s : State) :
    (beginEdit c s).budgets = s.budgets := by
  unfold beginEdit
  cases entryOf s.budgets c with
  | none => rfl
  | some b => by_cases h : b.lockedForMonth <;> simp [h]

theorem updateDraft_budgets (v : ℚ) (s : State) :
    (updateDraft v s).budgets = s.budgets := by
  unfold updateDraft
  by_cases h : s.editingCategory.isSome <;> simp [h]

theorem cancelEdit_budgets (s : State) : (cancelEdit s).budgets = s.budgets := rfl

theorem toggleCard_budgets (c : String) (s : State) :
    (toggleCard c s).budgets = s.budgets := by
  unfold toggleCard
  by_cases h : s.budgets.any (fun b => b.category == c) <;> simp [h]

theorem step_budgets_of_not_save (op : Op) (s : State) (h : ∀ c, op ≠ Op.save c) :
    (step op s).budgets = s.budgets := by
  cases op with
  | beginEdit c => exact beginEdit_budgets c s
  | updateDraft v => exact updateDraft_budgets v s
  | save c => exact absurd rfl (h c)
  | cancel => exact cancelEdit_budgets s
  | toggle c => exact toggleCard_budgets c s

theorem lockedAt_of_budgets_eq (s s' : State) (h : s'.budgets = s.budgets) (c : String) :
    lockedAt s' c = lockedAt s c := by
  unfold lockedAt entryOf
  rw [h]

theorem lockedAt_step (op : Op) (s : State) (c : String) (h : lockedAt s c = true) :
    lockedAt (step op s) c = true := by
  cases op with
  | beginEdit d =>
      show lockedAt (beginEdit d s) c = true
      rw [lockedAt_of_budgets_eq s _ (beginEdit_budgets d s)]; exact h
  | updateDraft v =>
      show lockedAt (updateDraft v s) c = true
      rw [lockedAt_of_budgets_eq s _ (updateDraft_budgets v s)]; exact h
  | save d =>
      show lockedAt
        (if s.editingCategory = some d ∧ s.budgets.any (fun b => b.category == d) then
          handleSave d s else s) c = true
      split_ifs with hg
      · exact lockedAt_handleSave d c s h
      · exact h
  | cancel =>
      show lockedAt (cancelEdit s) c = true
      rw [lockedAt_of_budgets_eq s _ (cancelEdit_budgets s)]; exact h
  | toggle d =>
      show lockedAt (toggleCard d s) c = true
      rw [lockedAt_of_budgets_eq s _ (toggleCard_budgets d s)]; exact h

theorem runOps_nil (s : State) : runOps [] s = s := rfl

theorem runOps_cons (op : Op) (ops : List Op) (s : State) :
    runOps (op :: ops) s = runOps ops (step op s) := rfl

theorem lockedAt_runOps (ops : List Op) (s : State) (c : String) (h : lockedAt s c = true) :
    lockedAt (runOps ops s) c = true := by
  induction ops generalizing s with
  | nil => exact h
  | cons op ops ih => rw [runOps_cons]; exact ih (step op s) (lockedAt_step op s c h)

theorem beginEdit_of_locked (c : String) (s : State) (h : lockedAt s c = true) :
    beginEdit c s = s := by
  unfold lockedAt at h
  unfold beginEdit
  cases he : entryOf s.budgets c with
  | none => rfl
  | some b =>
      have hb : b.lockedForMonth = true := by rw [he] at h; exact h
      simp [hb]

/-! ## The edit-mode invariant and immutability of locked entries -/

theorem editInv_initial : EditInv initialState := by
  intro c hc
  cases hc

theorem editInv_step (op : Op) (s : State) (h : EditInv s) : EditInv (step op s) := by
  cases op with
  | beginEdit d =>
      show EditInv (beginEdit d s)
      unfold beginEdit
      cases he : entryOf s.budgets d with
      | none => exact h
      | some b =>
          by_cases hb : b.lockedForMonth
          · simpa [hb] using h
          · simp only [hb, if_neg (by simp [hb] : ¬ b.lockedForMonth = true)]
            intro c hc
            have : d = c := by simpa using hc
            subst this
            exact ⟨b, he, by simpa using hb⟩
  | updateDraft v =>
      show EditInv (updateDraft v s)
      unfold updateDraft
      by_cases hv : s.editingCategory.isSome
      · simp only [hv, if_pos rfl]
        intro c hc
        exact h c hc
      · simpa [hv] using h
  | save d =>
      show EditInv
        (if s.editingCategory = some d ∧ s.budgets.any (fun b => b.category == d) then
          handleSave d s else s)
      split_ifs with hg
      · intro c hc
        rw [handleSave_editingCategory] at hc
        cases hc
      · exact h
  | cancel =>
      intro c hc
      cases hc
  | toggle d =>
      show EditInv (toggleCard d s)
      unfold toggleCard
      by_cases hd : s.budgets.any (fun b => b.category == d)
      · simp only [hd]
        intro c hc
        exact h c hc
      · simpa [hd] using h

theorem editInv_runOps (ops : List Op) (s : State) (h : EditInv s) : EditInv (runOps ops s) := by
  induction ops generalizing s with
  | nil => exact h
  | cons op ops ih => rw [runOps_cons]; exact ih (step op s) (editInv_step op s h)

theorem entry_frozen_step (op : Op) (s : State) (hInv : EditInv s) (c : String)
    (b : CategoryBudget) (he : entryOf s.budgets c = some b) (hb : b.lockedForMonth = true) :
    entryOf (step op s).budgets c = some b := by
  cases op with
  | beginEdit d =>
      show entryOf (beginEdit d s).budgets c = some b
      rw [beginEdit_budgets]; exact he
  | updateDraft v =>
      show entryOf (updateDraft v s).budgets c = some b
      rw [updateDraft_budgets]; exact he
  | save d =>
      show entryOf
        (if s.editingCategory = some d ∧ s.budgets.any (fun b => b.category == d) then
          handleSave d s else s).budgets c = some b
      split_ifs with hg
      · rcases hInv d hg.1 with ⟨b', he', hb'⟩
        have hne : b.category ≠ d := by
          intro hcd
          have hcat : b.category = c := entryOf_category s.budgets c b he
          rw [hcat] at hcd
          subst hcd
          rw [he] at he'
          cases he'
          rw [hb] at hb'
          cases hb'
        rw [entryOf_handleSave, he]
        simp [saveEntry_of_ne d s.editValue b hne]
      · exact he
  | cancel => exact he
  | toggle d =>
      show entryOf (toggleCard d s).budgets c = some b
      rw [toggleCard_budgets]; exact he

theorem entry_frozen_runOps (ops : List Op) (s : State) (hInv : EditInv s) (c : String)
    (b : CategoryBudget) (he : entryOf s.budgets c = some b) (hb : b.lockedForMonth = true) :
    entryOf (runOps ops s).budgets c = some b := by
  induction ops generalizing s with
  | nil => exact he
  | cons op ops ih =>
      rw [runOps_cons]
      exact ih (step op s) (editInv_step op s hInv) (entry_frozen_step op s hInv c b he hb)

/-! ## The stable descending sort -/

theorem perm_insertStat (x : CategoryStat) (l : List CategoryStat) :
    (insertStat x l).Perm (x :: l) := by
  induction l with
  | nil => exact List.Perm.refl _
  | cons y ys ih =>
      unfold insertStat
      by_cases h : y.amount ≤ x.amount
      · rw [if_pos h]
      · rw [if_neg h]
        exact (ih.cons y).trans (List.Perm.swap x y ys)

theorem perm_sortStats (l : List CategoryStat) : (sortStats l).Perm l := by
  induction l with
  | nil => exact List.Perm.refl _
  | cons x xs ih =>
      unfold sortStats
      exact (perm_insertStat x (sortStats xs)).trans (ih.cons x)

theorem mem_insertStat (z x : CategoryStat) (l : List CategoryStat)
    (h : z ∈ insertStat x l) : z = x ∨ z ∈ l := by
  have := (perm_insertStat x l).mem_iff.1 h
  simpa using this

theorem pairwise_insertStat (x : CategoryStat) (l : List CategoryStat)
    (h : l.Pairwise (fun a b => b.amount ≤ a.amount)) :
    (insertStat x l).Pairwise (fun a b => b.amount ≤ a.amount) := by
  induction l with
  | nil => simp [insertStat]
  | cons y ys ih =>
      rcases List.pairwise_cons.1 h with ⟨hy, hys⟩
      unfold insertStat
      by_cases hle : y.amount ≤ x.amount
      · rw [if_pos hle]
        refine List.pairwise_cons.2 ⟨?_, h⟩
        intro z hz
        rcases List.mem_cons.1 hz with hz | hz
        · exact hz ▸ hle
        · exact (hy z hz).trans hle
      · rw [if_neg hle]
        refine List.pairwise_cons.2 ⟨?_, ih hys⟩
        intro z hz
        rcases mem_insertStat z x ys hz with hz | hz
        · exact hz ▸ le_of_lt (lt_of_not_le hle)
        · exact hy z hz

theorem pairwise_sortStats (l : List CategoryStat) :
    (sortStats l).Pairwise (fun a b => b.amount ≤ a.amount) := by
  induction l with
  | nil => simp [sortStats]
  | cons x xs ih => exact pairwise_insertStat x (sortStats xs) ih

theorem filter_insertStat (q : ℚ) (x : CategoryStat) (l : List CategoryStat) :
    (insertStat x l).filter (fun e => e.amount == q)
      = if x.amount = q then x :: l.filter (fun e => e.amount == q)
        else l.filter (fun e => e.amount == q) := by
  induction l with
  | nil => by_cases h : x.amount = q <;> simp [insertStat, h]
  | cons y ys ih =>
      unfold insertStat
      by_cases hle : y.amount ≤ x.amount
      · rw [if_pos hle]
        by_cases hx : x.amount = q <;> simp [List.filter_cons, hx]
      · rw [if_neg hle]
        have hlt : x.amount < y.amount := lt_of_not_le hle
        by_cases hx : x.amount = q
        · have hy : y.amount ≠ q := by
            intro hy
            rw [hy, ← hx] at hlt
            exact lt_irrefl _ hlt
          simp [List.filter_cons, hy, ih, hx]
        · simp [List.filter_cons, ih, hx]

theorem filter_sortStats (q : ℚ) (l : List CategoryStat) :
    (sortStats l).filter (fun e => e.amount == q) = l.filter (fun e => e.amount == q) := by
  induction l with
  | nil => rfl
  | cons x xs ih =>
      unfold sortStats
      rw [filter_insertStat]
      by_cases hx : x.amount = q <;> simp [List.filter_cons, hx, ih]

/-! ## The insertion-ordered category-total map -/

theorem any_key_iff (acc : List (String × ℚ)) (c : String) :
    acc.any (fun p => p.1 == c) = true ↔ c ∈ keysOf acc := by
  rw [List.any_eq_true]
  constructor
  · rintro ⟨p, hp, hpc⟩
    exact List.mem_map.2 ⟨p, hp, by simpa [beq_iff_eq] using hpc⟩
  · intro h
    rcases List.mem_map.1 h with ⟨p, hp, hpc⟩
    exact ⟨p, hp, by simpa [beq_iff_eq] using hpc⟩

theorem keysOf_addTx (acc : List (String × ℚ)) (t : Transaction) :
    keysOf (addTx acc t)
      = if t.category ∈ keysOf acc then keysOf acc else keysOf acc ++ [t.category] := by
  unfold addTx
  by_cases h : acc.any (fun p => p.1 == t.category) = true
  · rw [if_pos h, if_pos ((any_key_iff acc t.category).1 h)]
    unfold keysOf
    rw [List.map_map]
    refine List.map_congr_left ?_
    intro p _
    by_cases hp : p.1 == t.category <;> simp [Function.comp, hp]
  · rw [if_neg h, if_neg (fun hm => h ((any_key_iff acc t.category).2 hm))]
    simp [keysOf]

theorem keysOf_addTx_nodup (acc : List (String × ℚ)) (t : Transaction)
    (h : (keysOf acc).Nodup) : (keysOf (addTx acc t)).Nodup := by
  rw [keysOf_addTx]
  by_cases hm : t.category ∈ keysOf acc
  · rw [if_pos hm]; exact h
  · rw [if_neg hm]
    simp [List.nodup_append, h, hm]

theorem mem_keysOf_addTx (acc : List (String × ℚ)) (t : Transaction) (c : String) :
    c ∈ keysOf (addTx acc t) ↔ c ∈ keysOf acc ∨ c = t.category := by
  rw [keysOf_addTx]
  by_cases hm : t.category ∈ keysOf acc
  · rw [if_pos hm]
    constructor
    · exact Or.inl
    · rintro (h | h)
      · exact h
      · exact h ▸ hm
  · rw [if_neg hm]
    simp

theorem filter_key_eq_nil (l : List (String × ℚ)) (c : String) (h : c ∉ keysOf l) :
    l.filter (fun p => p.1 == c) = [] := by
  refine List.filter_eq_nil_iff.2 ?_
  intro p hp
  simp only [beq_iff_eq]
  intro hc
  exact h (List.mem_map.2 ⟨p, hp, hc⟩)

theorem filter_key_singleton (l : List (String × ℚ)) (p : String × ℚ)
    (hn : (keysOf l).Nodup) (hp : p ∈ l) :
    l.filter (fun q => q.1 == p.1) = [p] := by
  induction l with
  | nil => cases hp
  | cons a l ih =>
      have hn' : (keysOf l).Nodup := (List.nodup_cons.1 hn).2
      have ha : a.1 ∉ keysOf l := (List.nodup_cons.1 hn).1
      rcases List.mem_cons.1 hp with h | h
      · subst h
        rw [List.filter_cons, if_pos (by simp)]
        rw [filter_key_eq_nil l p.1 ha]
      · have hne : a.1 ≠ p.1 := by
          intro hc
          exact ha (hc ▸ List.mem_map.2 ⟨p, h, rfl⟩)
        rw [List.filter_cons, if_neg (by simpa [beq_iff_eq] using hne)]
        exact ih hn' h

theorem lookupAmt_of_mem (l : List (String × ℚ)) (p : String × ℚ)
    (hn : (keysOf l).Nodup) (hp : p ∈ l) : lookupAmt l p.1 = p.2 := by
  unfold lookupAmt
  rw [filter_key_singleton l p hn hp]
  simp

theorem lookupAmt_addTx (acc : List (String × ℚ)) (t : Transaction) (c : String)
    (hn : (keysOf acc).Nodup) :
    lookupAmt (addTx acc t) c
      = lookupAmt acc c + (if t.category = c then t.amount else 0) := by
  unfold addTx
  by_cases h : acc.any (fun p => p.1 == t.category) = true
  · rw [if_pos h]
    have hmem : t.category ∈ keysOf acc := (any_key_iff acc t.category).1 h
    unfold lookupAmt
    rw [List.filter_map]
    have hcomp :
        acc.filter ((fun p : String × ℚ => p.1 == c) ∘
            (fun p : String × ℚ => if p.1 == t.category then (p.1, p.2 + t.amount) else p))
          = acc.filter (fun p => p.1 == c) := by
      refine List.filter_congr ?_
      intro p _
      by_cases hp : p.1 == t.category <;> simp [Function.comp, hp]
    rw [hcomp]
    by_cases hc : t.category = c
    · subst hc
      rcases List.mem_map.1 hmem with ⟨p0, hp0, hp0c⟩
      have hfil : acc.filter (fun p => p.1 == t.category) = [p0] := by
        have := filter_key_singleton acc p0 hn hp0
        rw [hp0c] at this
        exact this
      rw [hfil]
      simp [hp0c]
    · have : ∀ p ∈ acc.filter (fun p : String × ℚ => p.1 == c),
          (if p.1 == t.category then (p.1, p.2 + t.amount) else p) = p := by
        intro p hp
        have hpc : p.1 = c := by simpa [beq_iff_eq] using (List.mem_filter.1 hp).2
        have : ¬ (p.1 == t.category) = true := by
          simp only [beq_iff_eq, hpc]
          intro hcc
          exact hc hcc.symm
        simp [this]
      rw [List.map_congr_left this]
      simp [hc]
  · rw [if_neg h]
    unfold lookupAmt
    rw [List.filter_append]
    by_cases hc : t.category = c
    · subst hc
      simp [List.filter_cons]
    · have : ¬ (t.category == c) = true := by simpa [beq_iff_eq] using hc
      simp [List.filter_cons, this, hc]

theorem keysOf_foldl_nodup (ts : List Transaction) (acc : List (String × ℚ))
    (hn : (keysOf acc).Nodup) : (keysOf (ts.foldl addTx acc)).Nodup := by
  induction ts generalizing acc with
  | nil => exact hn
  | cons t ts ih => exact ih (addTx acc t) (keysOf_addTx_nodup acc t hn)

theorem keysOf_groupAmounts_nodup (ts : List Transaction) :
    (keysOf (groupAmounts ts)).Nodup := by
  exact keysOf_foldl_nodup ts [] (by simp [keysOf])

theorem lookupAmt_foldl (ts : List Transaction) (acc : List (String × ℚ)) (c : String)
    (hn : (keysOf acc).Nodup) :
    lookupAmt (ts.foldl addTx acc) c = lookupAmt acc c + getSpentByCategory ts c := by
  induction ts generalizing acc with
  | nil => simp [getSpentByCategory_nil]
  | cons t ts ih =>
      rw [List.foldl_cons, ih (addTx acc t) (keysOf_addTx_nodup acc t hn),
        lookupAmt_addTx acc t c hn, getSpentByCategory_cons]
      ring

theorem lookupAmt_groupAmounts (ts : List Transaction) (c : String) :
    lookupAmt (groupAmounts ts) c = getSpentByCategory ts c := by
  have := lookupAmt_foldl ts [] c (by simp [keysOf])
  simpa [groupAmounts, lookupAmt] using this

theorem mem_keysOf_foldl (ts : List Transaction) (acc : List (String × ℚ)) (c : String) :
    c ∈ keysOf (ts.foldl addTx acc)
      ↔ c ∈ keysOf acc ∨ c ∈ ts.map (fun t => t.category) := by
  induction ts generalizing acc with
  | nil => simp
  | cons t ts ih =>
      rw [List.foldl_cons, ih (addTx acc t)]
      rw [mem_keysOf_addTx]
      constructor
      · rintro ((h | h) | h)
        · exact Or.inl h
        · exact Or.inr (by simp [h])
        · exact Or.inr (by simp [Or.inr (List.mem_map.1 h)])
      · rintro (h | h)
        · exact Or.inl (Or.inl h)
        · rcases List.mem_map.1 h with ⟨u, hu, huc⟩
          rcases List.mem_cons.1 hu with hu | hu
          · exact Or.inl (Or.inr (by rw [← huc, hu]))
          · exact Or.inr (List.mem_map.2 ⟨u, hu, huc⟩)

theorem mem_keysOf_groupAmounts (ts : List Transaction) (c : String) :
    c ∈ keysOf (groupAmounts ts) ↔ c ∈ ts.map (fun t => t.category) := by
  have := mem_keysOf_foldl ts [] c
  simpa [groupAmounts, keysOf] using this

theorem keysOf_foldl_eq_firstKeys (ts : List Transaction) (acc : List (String × ℚ)) :
    keysOf (ts.foldl addTx acc)
      = keysOf acc
        ++ (firstKeys (ts.map (fun t => t.category))).filter
             (fun c => decide (c ∉ keysOf acc)) := by
  induction ts generalizing acc with
  | nil => simp [firstKeys]
  | cons t ts ih =>
      rw [List.foldl_cons, ih (addTx acc t)]
      rw [keysOf_addTx]
      show _ = keysOf acc
        ++ (firstKeys (t.category :: ts.map (fun u => u.category))).filter
             (fun c => decide (c ∉ keysOf acc))
      rw [firstKeys]
      by_cases hm : t.category ∈ keysOf acc
      · rw [if_pos hm]
        rw [List.filter_cons]
        rw [if_neg (by simp [hm])]
        rw [List.filter_filter]
        congr 1
        refine List.filter_congr ?_
        intro c _
        by_cases hc : c = t.category
        · subst hc
          simp [hm]
        · simp [hc]
      · rw [if_neg hm]
        rw [List.filter_cons]
        rw [if_pos (by simp [hm])]
        rw [List.append_assoc]
        congr 1
        rw [List.filter_filter]
        show t.category :: _ = t.category :: _
        congr 1
        refine List.filter_congr ?_
        intro c _
        by_cases hc : c = t.category
        · subst hc
          simp
        · simp [hc, List.mem_append]

theorem keysOf_groupAmounts_eq_firstKeys (ts : List Transaction) :
    keysOf (groupAmounts ts) = firstKeys (ts.map (fun t => t.category)) := by
  have := keysOf_foldl_eq_firstKeys ts []
  simp only [groupAmounts] at this ⊢
  rw [this]
  simp [keysOf]

theorem sumValues_addTx (acc : List (String × ℚ)) (t : Transaction)
    (hn : (keysOf acc).Nodup) :
    ((addTx acc t).map Prod.snd).sum = (acc.map Prod.snd).sum + t.amount := by
  unfold addTx
  by_cases h : acc.any (fun p => p.1 == t.category) = true
  · rw [if_pos h]
    have hmem : t.category ∈ keysOf acc := (any_key_iff acc t.category).1 h
    rw [List.map_map]
    have hpt : ∀ p ∈ acc,
        (Prod.snd ∘ (fun p : String × ℚ =>
            if p.1 == t.category then (p.1, p.2 + t.amount) else p)) p
          = p.2 + (if p.1 = t.category then t.amount else 0) := by
      intro p _
      by_cases hp : p.1 = t.category <;> simp [Function.comp, hp]
    rw [List.map_congr_left hpt, List.sum_map_add]
    have hind : (acc.map (fun p : String × ℚ =>
        if p.1 = t.category then t.amount else 0)).sum = t.amount := by
      have hmm : acc.map (fun p : String × ℚ => if p.1 = t.category then t.amount else 0)
          = (keysOf acc).map (fun c => if c = t.category then t.amount else 0) := by
        unfold keysOf
        rw [List.map_map]
        rfl
      rw [hmm]
      exact sum_map_ite_eq t.amount t.category (keysOf acc) hn hmem
    rw [hind]
  · rw [if_neg h]
    simp

theorem sumValues_foldl (ts : List Transaction) (acc : List (String × ℚ))
    (hn : (keysOf acc).Nodup) :
    ((ts.foldl addTx acc).map Prod.snd).sum = (acc.map Prod.snd).sum + totalSpent ts := by
  induction ts generalizing acc with
  | nil => simp [totalSpent]
  | cons t ts ih =>
      rw [List.foldl_cons, ih (addTx acc t) (keysOf_addTx_nodup acc t hn),
        sumValues_addTx acc t hn, totalSpent_cons]
      ring

theorem sumValues_groupAmounts (ts : List Transaction) :
    ((groupAmounts ts).map Prod.snd).sum = totalSpent ts := by
  have := sumValues_foldl ts [] (by simp [keysOf])
  simpa [groupAmounts] using this

/-! ## `preStats` projections and the partition of total spend -/

theorem preStats_map_category (ts : List Transaction) :
    (preStats ts).map (fun e => e.category) = keysOf (groupAmounts ts) := by
  unfold preStats keysOf
  rw [List.map_map]
  rfl

theorem preStats_map_amount (ts : List Transaction) :
    (preStats ts).map (fun e => e.amount) = (groupAmounts ts).map Prod.snd := by
  unfold preStats
  rw [List.map_map]
  rfl

theorem sum_spent_over_dedup (ts : List Transaction) :
    (((ts.map (fun t => t.category)).dedup).map (getSpentByCategory ts)).sum
      = totalSpent ts := by
  induction ts with
  | nil => simp [totalSpent]
  | cons t ts ih =>
      have hsplit : ∀ l : List String,
          (l.map (getSpentByCategory (t :: ts))).sum
            = (l.map (fun c => if c = t.category then t.amount else 0)).sum
              + (l.map (getSpentByCategory ts)).sum := by
        intro l
        rw [← List.sum_map_add]
        refine congrArg List.sum (List.map_congr_left ?_)
        intro c _
        rw [getSpentByCategory_cons]
        by_cases hc : t.category = c
        · simp [hc]
        · have : ¬ c = t.category := fun h => hc h.symm
          simp [hc, this]
      rw [List.map_cons]
      by_cases hm : t.category ∈ ts.map (fun u => u.category)
      · rw [List.dedup_cons_of_mem hm, hsplit, ih,
          sum_map_ite_eq t.amount t.category _ (List.nodup_dedup _) (List.mem_dedup.2 hm),
          totalSpent_cons]
      · rw [List.dedup_cons_of_not_mem hm, List.map_cons, List.sum_cons, hsplit, ih,
          sum_map_ite_eq_zero t.amount t.category _ (fun h => hm (List.mem_dedup.1 h)),
          getSpentByCategory_cons, getSpentByCategory_eq_zero ts t.category hm,
          totalSpent_cons]
        simp

/-! ## Claim theorems -/

/-- C2: for every budget list and transaction list, `spentPercentage`
equals `jsRound (totalSpent / totalBudget * 100)` when `totalBudget > 0`
and equals `0` when `totalBudget ≤ 0`; in particular the empty budget list
has `totalBudget = 0` and `spentPercentage = 0`, with no division error. -/
theorem spentPercentage_spec :
    (∀ (bs : List CategoryBudget) (ts : List Transaction),
        (totalBudget bs > 0 →
          spentPercentage bs ts = jsRound (totalSpent ts / totalBudget bs * 100)) ∧
        (totalBudget bs ≤ 0 → spentPercentage bs ts = 0)) ∧
    totalBudget [] = 0 ∧ (∀ ts : List Transaction, spentPercentage [] ts = 0) := by
  refine ⟨?_, rfl, ?_⟩
  · intro bs ts
    constructor
    · intro h
      simp [spentPercentage, h]
    · intro h
      have hng : ¬ totalBudget bs > 0 := not_lt.2 h
      simp [spentPercentage, hng]
  · intro ts
    simp [spentPercentage, totalBudget]

/-- Witness for C2 at the seed data: the seed budget list has positive
total budget so the rounding formula applies, and an empty budget list
reports zero percent. -/
theorem spentPercentage_spec_witness :
    (totalBudget initialBudgets > 0 ∧
      spentPercentage initialBudgets mockTransactions
        = jsRound (totalSpent mockTransactions / totalBudget initialBudgets * 100)) ∧
    spentPercentage [] mockTransactions = 0 :=
  ⟨⟨by norm_num [totalBudget, initialBudgets],
    (spentPercentage_spec.1 initialBudgets mockTransactions).1
      (by norm_num [totalBudget, initialBudgets])⟩,
    spentPercentage_spec.2.2 mockTransactions⟩

/-- C6 counterexample: at an overall spend percentage of exactly 70 the
circular indicator shows the normal tier, while the claim requires the
warning tier on the closed range from 70 to 90. -/
theorem progressColor_boundary_counterexample :
    (70 : ℤ) ≤ 70 ∧ (70 : ℤ) ≤ 90 ∧ progressColor 70 ≠ ColorTier.warning ∧
      progressColor 70 = ColorTier.normal := by
  decide

/-- C6 amended: the circular indicator's tier is normal for percentages
up to and including 70, warning strictly above 70 and up to 90, and
danger strictly above 90. -/
theorem progressColor_tiers (p : ℤ) :
    (p ≤ 70 → progressColor p = ColorTier.normal) ∧
    (70 < p → p ≤ 90 → progressColor p = ColorTier.warning) ∧
    (90 < p → progressColor p = ColorTier.danger) := by
  refine ⟨?_, ?_, ?_⟩
  · intro h
    unfold progressColor
    rw [if_neg (by omega), if_neg (by omega)]
  · intro h1 h2
    unfold progressColor
    rw [if_neg (by omega), if_pos (by omega)]
  · intro h
    unfold progressColor
    rw [if_pos (by omega)]

/-- Witness for the amended C6: one percentage in each tier. -/
theorem progressColor_tiers_witness :
    progressColor 65 = ColorTier.normal ∧ progressColor 80 = ColorTier.warning ∧
      progressColor 95 = ColorTier.danger :=
  ⟨(progressColor_tiers 65).1 (by decide),
   (progressColor_tiers 80).2.1 (by decide) (by decide),
   (progressColor_tiers 95).2.2 (by decide)⟩

/-- C7: for a category present in the budget list, `handleSave` sets that
entry to the current edit value with the lock flag, leaves every other
entry unchanged, clears the editing category and shows exactly the
success message of the source. -/
theorem handleSave_spec (s : State) (c : String)
    (hc : (entryOf s.budgets c).isSome = true) :
    entryOf (handleSave c s).budgets c = some ⟨c, s.editValue, true⟩ ∧
    (∀ d, d ≠ c → entryOf (handleSave c s).budgets d = entryOf s.budgets d) ∧
    (handleSave c s).editingCategory = none ∧
    (handleSave c s).toast
      = some ⟨"Budget for " ++ c ++ " updated & locked for this month!",
          ToastKind.success⟩ := by
  refine ⟨?_, ?_, rfl, rfl⟩
  · rw [entryOf_handleSave]
    cases he : entryOf s.budgets c with
    | none => rw [he] at hc; cases hc
    | some b =>
        have hcat : b.category = c := entryOf_category s.budgets c b he
        simp [saveEntry_of_eq c s.editValue b hcat]
  · intro d hd
    rw [entryOf_handleSave]
    cases he : entryOf s.budgets d with
    | none => rfl
    | some b =>
        have hcat : b.category = d := entryOf_category s.budgets d b he
        have hne : b.category ≠ c := by rw [hcat]; exact hd
        simp [saveEntry_of_ne c s.editValue b hne]

/-- Witness for C7: saving the Shopping budget from the initial state. -/
theorem handleSave_spec_witness :
    entryOf (handleSave "Shopping" initialState).budgets "Shopping"
        = some ⟨"Shopping", initialState.editValue, true⟩ ∧
    (∀ d, d ≠ "Shopping" →
      entryOf (handleSave "Shopping" initialState).budgets d
        = entryOf initialState.budgets d) ∧
    (handleSave "Shopping" initialState).editingCategory = none ∧
    (handleSave "Shopping" initialState).toast
      = some ⟨"Budget for " ++ "Shopping" ++ " updated & locked for this month!",
          ToastKind.success⟩ :=
  handleSave_spec initialState "Shopping" (by decide)

/-- C8: the cancel button clears the editing category and leaves the
budget list, hence every entry's budget and lock flag, unchanged. -/
theorem cancelEdit_spec (s : State) :
    (cancelEdit s).editingCategory = none ∧ (cancelEdit s).budgets = s.budgets :=
  ⟨rfl, rfl⟩

theorem toggleCard_expanded (c : String) (s : State)
    (hc : s.budgets.any (fun b => b.category == c) = true) :
    (toggleCard c s).expandedCategory
      = if s.expandedCategory = some c then none else some c := by
  unfold toggleCard
  rw [if_pos hc]

/-- C9 counterexample: with Food expanded, toggling Shopping twice leaves
nothing expanded instead of restoring Food, so a double toggle does not
return `expandedCategory` to an arbitrary prior value. -/
theorem toggle_restore_counterexample :
    (toggleCard "Shopping" (toggleCard "Shopping"
        (toggleCard "Food" initialState))).expandedCategory
      ≠ (toggleCard "Food" initialState).expandedCategory := by
  decide

/-- C9 amended: for a category with a card, toggling sets
`expandedCategory` to none if it was that category and to that category
otherwise (so at most one category is ever expanded); a double toggle
restores the original value when it was none or the toggled category, and
otherwise ends with nothing expanded. -/
theorem toggle_spec (s : State) (c : String)
    (hc : s.budgets.any (fun b => b.category == c) = true) :
    (toggleCard c s).expandedCategory
        = (if s.expandedCategory = some c then none else some c) ∧
    (s.expandedCategory = none ∨ s.expandedCategory = some c →
      (toggleCard c (toggleCard c s)).expandedCategory = s.expandedCategory) ∧
    (∀ d, s.expandedCategory = some d → d ≠ c →
      (toggleCard c (toggleCard c s)).expandedCategory = none) := by
  have h1 : (toggleCard c s).budgets.any (fun b => b.category == c) = true := by
    rw [toggleCard_budgets]; exact hc
  refine ⟨toggleCard_expanded c s hc, ?_, ?_⟩
  · rintro (h | h) <;>
      rw [toggleCard_expanded c _ h1, toggleCard_expanded c s hc, h] <;> simp
  · intro d hd hdc
    rw [toggleCard_expanded c _ h1, toggleCard_expanded c s hc, hd]
    have hne : ¬ (some d = some c) := by simpa using hdc
    simp [hne]

/-- Witness for the amended C9: toggling the Food card from the initial
state expands it, and a double toggle from the initial state restores the
unexpanded state. -/
theorem toggle_spec_witness :
    (toggleCard "Food" initialState).expandedCategory
        = (if initialState.expandedCategory = some "Food" then none else some "Food") ∧
    (initialState.expandedCategory = none ∨ initialState.expandedCategory = some "Food" →
      (toggleCard "Food" (toggleCard "Food" initialState)).expandedCategory
        = initialState.expandedCategory) ∧
    (∀ d, initialState.expandedCategory = some d → d ≠ "Food" →
      (toggleCard "Food" (toggleCard "Food" initialState)).expandedCategory = none) :=
  toggle_spec initialState "Food" (by decide)

/-- C10: calling `handleSave` with a category that matches no budget
entry leaves the whole budget list unchanged, yet still clears the
editing category, shows the success toast and fires the celebratory
effect as if a budget had been saved. -/
theorem handleSave_unknown_category (s : State) (c : String)
    (hc : ∀ b ∈ s.budgets, b.category ≠ c) :
    (handleSave c s).budgets = s.budgets ∧
    (handleSave c s).editingCategory = none ∧
    (handleSave c s).toast
      = some ⟨"Budget for " ++ c ++ " updated & locked for this month!",
          ToastKind.success⟩ ∧
    (handleSave c s).confetti = s.confetti + 1 := by
  refine ⟨?_, rfl, rfl, rfl⟩
  rw [handleSave_budgets]
  have hfix : ∀ b ∈ s.budgets, saveEntry c s.editValue b = b := fun b hb =>
    saveEntry_of_ne c s.editValue b (hc b hb)
  rw [List.map_congr_left hfix]
  simp

/-- Witness for C10: saving a category absent from the seed budgets. -/
theorem handleSave_unknown_category_witness :
    (handleSave "Groceries" initialState).budgets = initialState.budgets ∧
    (handleSave "Groceries" initialState).editingCategory = none ∧
    (handleSave "Groceries" initialState).toast
      = some ⟨"Budget for " ++ "Groceries" ++ " updated & locked for this month!",
          ToastKind.success⟩ ∧
    (handleSave "Groceries" initialState).confetti = initialState.confetti + 1 :=
  handleSave_unknown_category initialState "Groceries" (by decide)

/-- C1: once a category's budget has been saved, its entry is locked; the
lock survives any further sequence of user events, after which a begin
edit attempt on that category is rejected with no state change; and no
user event ever turns a locked entry back into an unlocked one. -/
theorem one_time_edit_invariant :
    (∀ (s : State) (c : String), (entryOf s.budgets c).isSome = true →
      ∀ ops : List Op,
        beginEdit c (runOps ops (handleSave c s)) = runOps ops (handleSave c s) ∧
        lockedAt (runOps ops (handleSave c s)) c = true) ∧
    (∀ (op : Op) (s : State) (c : String),
      lockedAt s c = true → lockedAt (step op s) c = true) := by
  constructor
  · intro s c hc ops
    have hl : lockedAt (runOps ops (handleSave c s)) c = true :=
      lockedAt_runOps ops (handleSave c s) c (lockedAt_handleSave_self c s hc)
    exact ⟨beginEdit_of_locked c _ hl, hl⟩
  · exact lockedAt_step

/-- Witness for C1: after saving Shopping from the initial state and then
attempting an edit and cancelling, Shopping stays locked and a further
begin edit is a no-op. -/
theorem one_time_edit_invariant_witness :
    beginEdit "Shopping"
        (runOps [Op.beginEdit "Shopping", Op.cancel] (handleSave "Shopping" initialState))
      = runOps [Op.beginEdit "Shopping", Op.cancel] (handleSave "Shopping" initialState) ∧
    lockedAt
        (runOps [Op.beginEdit "Shopping", Op.cancel] (handleSave "Shopping" initialState))
        "Shopping" = true :=
  one_time_edit_invariant.1 initialState "Shopping" (by decide)
    [Op.beginEdit "Shopping", Op.cancel]

/-- C3: only the save event can change the budget list, and an entry that
is locked in any state reachable from the initial state keeps exactly its
budget value and lock flag across every further sequence of user
events. -/
theorem locked_budget_immutable :
    (∀ (op : Op) (s : State), (∀ c, op ≠ Op.save c) → (step op s).budgets = s.budgets) ∧
    (∀ (ops1 : List Op) (c : String) (b : CategoryBudget),
      entryOf (runOps ops1 initialState).budgets c = some b →
      b.lockedForMonth = true →
      ∀ ops2 : List Op,
        entryOf (runOps ops2 (runOps ops1 initialState)).budgets c = some b) := by
  constructor
  · exact step_budgets_of_not_save
  · intro ops1 c b he hb ops2
    exact entry_frozen_runOps ops2 (runOps ops1 initialState)
      (editInv_runOps ops1 initialState editInv_initial) c b he hb

/-- Witness for C3: Food starts locked at 8000 in the initial state and
stays exactly there across an edit attempt, a save event and a toggle. -/
theorem locked_budget_immutable_witness :
    entryOf (runOps [Op.beginEdit "Food", Op.save "Food", Op.toggle "Food"]
        (runOps [] initialState)).budgets "Food" = some ⟨"Food", 8000, true⟩ :=
  locked_budget_immutable.2 [] "Food" ⟨"Food", 8000, true⟩ (by decide) (by decide)
    [Op.beginEdit "Food", Op.save "Food", Op.toggle "Food"]

/-- C4: `categoryStats` has exactly one entry per category appearing in
the transactions, each entry's amount is that category's spend total and
its percentage is amount over total spend times 100 (0 when nothing is
spent), the rows are sorted descending by amount, and rows with equal
amounts keep the stable first-appearance order of the pre-sort list,
whose category order is first appearance in the transactions. -/
theorem categoryStats_spec (ts : List Transaction) (hnn : ∀ t ∈ ts, 0 ≤ t.amount) :
    ((categoryStats ts).map (fun e => e.category)).Nodup ∧
    (∀ c, c ∈ (categoryStats ts).map (fun e => e.category)
        ↔ c ∈ ts.map (fun t => t.category)) ∧
    (∀ e ∈ categoryStats ts,
        e.amount = getSpentByCategory ts e.category ∧
        e.percentageOfTotal
          = (if totalSpent ts = 0 then 0 else e.amount / totalSpent ts * 100)) ∧
    (categoryStats ts).Pairwise (fun a b => b.amount ≤ a.amount) ∧
    (∀ q : ℚ, (categoryStats ts).filter (fun e => e.amount == q)
        = (preStats ts).filter (fun e => e.amount == q)) ∧
    (preStats ts).map (fun e => e.category) = firstKeys (ts.map (fun t => t.category)) := by
  have hperm : (categoryStats ts).Perm (preStats ts) := perm_sortStats (preStats ts)
  have hpermc : ((categoryStats ts).map (fun e => e.category)).Perm
      ((preStats ts).map (fun e => e.category)) := hperm.map _
  have hkeys : (preStats ts).map (fun e => e.category) = keysOf (groupAmounts ts) :=
    preStats_map_category ts
  refine ⟨?_, ?_, ?_, pairwise_sortStats (preStats ts),
    fun q => filter_sortStats q (preStats ts),
    hkeys.trans (keysOf_groupAmounts_eq_firstKeys ts)⟩
  · rw [hpermc.nodup_iff, hkeys]
    exact keysOf_groupAmounts_nodup ts
  · intro c
    rw [hpermc.mem_iff, hkeys]
    exact mem_keysOf_groupAmounts ts c
  · intro e he
    have hepre : e ∈ preStats ts := hperm.mem_iff.1 he
    rcases List.mem_map.1 hepre with ⟨p, hp, hpe⟩
    subst hpe
    constructor
    · show p.2 = getSpentByCategory ts p.1
      rw [← lookupAmt_groupAmounts ts p.1]
      exact (lookupAmt_of_mem (groupAmounts ts) p (keysOf_groupAmounts_nodup ts) hp).symm
    · show (if totalSpent ts > 0 then p.2 / totalSpent ts * 100 else 0)
          = (if totalSpent ts = 0 then 0 else p.2 / totalSpent ts * 100)
      by_cases h0 : totalSpent ts = 0
      · rw [if_pos h0, if_neg (by rw [h0]; exact lt_irrefl 0)]
      · have hpos : totalSpent ts > 0 :=
          lt_of_le_of_ne (totalSpent_nonneg ts hnn) (Ne.symm h0)
        rw [if_pos hpos, if_neg h0]

/-- Witness for C4 at the seed transactions (all amounts nonnegative). -/
theorem categoryStats_spec_witness :
    ((categoryStats mockTransactions).map (fun e => e.category)).Nodup ∧
    (∀ c, c ∈ (categoryStats mockTransactions).map (fun e => e.category)
        ↔ c ∈ mockTransactions.map (fun t => t.category)) ∧
    (∀ e ∈ categoryStats mockTransactions,
        e.amount = getSpentByCategory mockTransactions e.category ∧
        e.percentageOfTotal
          = (if totalSpent mockTransactions = 0 then 0
             else e.amount / totalSpent mockTransactions * 100)) ∧
    (categoryStats mockTransactions).Pairwise (fun a b => b.amount ≤ a.amount) ∧
    (∀ q : ℚ, (categoryStats mockTransactions).filter (fun e => e.amount == q)
        = (preStats mockTransactions).filter (fun e => e.amount == q)) ∧
    (preStats mockTransactions).map (fun e => e.category)
      = firstKeys (mockTransactions.map (fun t => t.category)) :=
  categoryStats_spec mockTransactions (by decide)

/-- C5: the per-category spend totals over the distinct categories of the
transaction list partition the total spend, and the amounts of the
`categoryStats` rows sum to the total spend. -/
theorem spent_partition (ts : List Transaction) :
    (((ts.map (fun t => t.category)).dedup).map (getSpentByCategory ts)).sum
        = totalSpent ts ∧
    ((categoryStats ts).map (fun e => e.amount)).sum = totalSpent ts := by
  refine ⟨sum_spent_over_dedup ts, ?_⟩
  have hperm : ((categoryStats ts).map (fun e => e.amount)).Perm
      ((preStats ts).map (fun e => e.amount)) :=
    (perm_sortStats (preStats ts)).map _
  rw [hperm.sum_eq, preStats_map_amount, sumValues_groupAmounts]
